import Mathlib

/-!
Verification of the `authzed/consistent` repository: a consistent hashring
(`src/hashring/hashring.go`) and the gRPC balancer / picker built on it
(`src/unnamed/part_000`).

Embedding conventions:
* Go byte strings (`[]byte`, `string`) are `List Nat` (one `Nat` per byte).
* Go `uint64` hash values are `Nat`.  Hash outputs are only ever compared or
  byte-encoded, never arithmetically combined, so the only places where the
  64-bit width matters are the explicit little-endian byte encodings and the
  `int64` arithmetic of `intn`, which take the width into account explicitly.
* `map[string]nodeRecord` is an association list; the Go map is only used for
  lookup, insert and delete, and its iteration order is never observed by the
  functions modelled here.
* Go methods that mutate the receiver and may return an error are modelled as
  `Except`-valued functions; the Go sources mutate only after every error
  return, so an error result leaves the ring exactly as it was.
-/

namespace Spec2Proof

abbrev Bytes := List Nat

abbrev HashFunc := Bytes → Nat

/-- A hashring member (the Go `Member` interface): identified by `Key()`.
`data` stands for whatever else a concrete implementation carries (for the
balancer it is the sub-connection handle). -/
structure Member where
  key : Bytes
  data : Nat
deriving DecidableEq, Repr

instance : Inhabited Member := ⟨⟨[], 0⟩⟩

/-- The owner snapshot a `virtualNode` carries (the Go `members : nodeRecord`
field).  The Go snapshot also contains the partially built `virtualNodes`
slice of the owner; no code path ever reads that field from a snapshot, so
the embedding keeps exactly the fields that are read: `hashvalue`, `nodeKey`
and `member`. -/
structure OwnerRef where
  hashvalue : Nat
  nodeKey : Bytes
  member : Member
deriving DecidableEq, Repr

/-- Go `virtualNode`. -/
structure VirtualNode where
  hashvalue : Nat
  members : OwnerRef
deriving DecidableEq, Repr

instance : Inhabited VirtualNode := ⟨⟨0, ⟨0, [], default⟩⟩⟩

/-- Go `nodeRecord` as stored in the `nodes` map. -/
structure NodeRecord where
  hashvalue : Nat
  nodeKey : Bytes
  member : Member
  virtualNodes : List VirtualNode
deriving DecidableEq, Repr

instance : Inhabited NodeRecord := ⟨⟨0, [], default, []⟩⟩

/-- Go `Ring`.  `replicationFactor` is a `uint16` in Go; it is a plain `Nat`
here, with `New` enforcing the same `≥ 1` bound as the source. -/
structure Ring where
  hashfn : HashFunc
  replicationFactor : Nat
  nodes : List (Bytes × NodeRecord)
  virtualNodes : List VirtualNode

/-- Lookup in the `nodes` map (`h.nodes[key]`). -/
def lookupNode (nodes : List (Bytes × NodeRecord)) (k : Bytes) : Option NodeRecord :=
  (nodes.find? (fun p => decide (p.1 = k))).map Prod.snd

/-- Deletion from the `nodes` map (`delete(h.nodes, key)`). -/
def eraseNode (nodes : List (Bytes × NodeRecord)) (k : Bytes) : List (Bytes × NodeRecord) :=
  nodes.filter (fun p => decide (p.1 ≠ k))

/-- Go `strings.Compare` on byte strings: lexicographic byte comparison
returning -1/0/+1. -/
def stringsCompare : Bytes → Bytes → Int
  | [], [] => 0
  | [], _ :: _ => -1
  | _ :: _, [] => 1
  | a :: as, b :: bs => if a < b then -1 else if b < a then 1 else stringsCompare as bs

/-- Go `compareUint64` from hashring.go. -/
def compareUint64 (x y : Nat) : Int :=
  if x < y then -1 else if x > y then 1 else 0

/-- Go `cmpVnode` from hashring.go: vnode hash, then owner key-hash, then
owner key bytes. -/
def cmpVnode (a b : VirtualNode) : Int :=
  if a.hashvalue = b.hashvalue then
    if a.members.hashvalue = b.members.hashvalue then
      stringsCompare a.members.nodeKey b.members.nodeKey
    else compareUint64 a.members.hashvalue b.members.hashvalue
  else compareUint64 a.hashvalue b.hashvalue

/-- The (non-strict) order `slices.SortFunc(h.virtualNodes, cmpVnode)` sorts
by. -/
def vnodeLE (a b : VirtualNode) : Prop := cmpVnode a b ≤ 0

instance : DecidableRel vnodeLE := fun a b => inferInstanceAs (Decidable (_ ≤ _))

/-- Go `slices.SortFunc(h.virtualNodes, cmpVnode)`, modelled as insertion
sort.  The Go sort is unstable, but `cmpVnode`-equal virtual nodes are equal
in this embedding (the owner snapshot is projected to the fields the code
reads), and the results proved below show equal-comparing vnodes are
indistinguishable wherever it matters. -/
def sortVnodes (l : List VirtualNode) : List VirtualNode := l.insertionSort vnodeLE

/-- Go `binary.LittleEndian.PutUint64(b, v)`: the written bytes, least
significant first. -/
def putUint64LE (v : Nat) : Bytes := (List.range 8).map (fun j => v / 256 ^ j % 256)

/-- Go `binary.LittleEndian.PutUint16(b, v)`. -/
def putUint16LE (v : Nat) : Bytes := (List.range 2).map (fun j => v / 256 ^ j % 256)

/-- The 10-byte `virtualNodeBuffer` of `Ring.Add` at loop iteration `i`:
`PutUint64` fills bytes 0..8 with the member key hash, `PutUint16` fills
bytes 8..10 with `i`.  (The loop counter is a `uint16` and runs below
`replicationFactor ≤ 65535`, so it never wraps.) -/
def virtualNodeBuffer (nodeHash i : Nat) : Bytes :=
  putUint64LE nodeHash ++ putUint16LE i

/-- The virtual nodes the `Ring.Add` loop generates for one member, in loop
order; each carries the owner snapshot built from the new node record. -/
def memberVnodes (f : HashFunc) (R : Nat) (nodeHash : Nat) (key : Bytes) (m : Member) :
    List VirtualNode :=
  (List.range R).map (fun i =>
    { hashvalue := f (virtualNodeBuffer nodeHash i),
      members := { hashvalue := nodeHash, nodeKey := key, member := m } })

/-- The package's error values. -/
inductive RingErr where
  | memberAlreadyExists
  | memberNotFound
  | notEnoughMembers
  | invalidReplicationFactor
  | vnodeNotFound
  | unexpectedVnodeCount
deriving DecidableEq, Repr

/-- Go `New(hashfn, replicationFactor)`. -/
def NewRing (f : HashFunc) (R : Nat) : Except RingErr Ring :=
  if R < 1 then .error .invalidReplicationFactor
  else .ok { hashfn := f, replicationFactor := R, nodes := [], virtualNodes := [] }

/-- The empty ring `New` returns on success. -/
def emptyRing (f : HashFunc) (R : Nat) : Ring :=
  { hashfn := f, replicationFactor := R, nodes := [], virtualNodes := [] }

/-- Go `Ring.Add`. -/
def Ring.Add (h : Ring) (member : Member) : Except RingErr Ring :=
  let nodeKeyString := member.key
  let nodeHash := h.hashfn nodeKeyString
  if (lookupNode h.nodes nodeKeyString).isSome then .error .memberAlreadyExists
  else
    let vns := memberVnodes h.hashfn h.replicationFactor nodeHash nodeKeyString member
    let newNodeRecord : NodeRecord :=
      { hashvalue := nodeHash, nodeKey := nodeKeyString, member := member,
        virtualNodes := vns }
    .ok { h with
      virtualNodes := sortVnodes (h.virtualNodes ++ vns),
      nodes := (nodeKeyString, newNodeRecord) :: h.nodes }

/-- Go `sort.Search(n, f)` by its documented contract: the smallest index in
`[0, n)` at which `f` is true, or `n` when there is none.  (The Go stdlib
computes this by binary search assuming `f` flips once from false to true;
every call site in this package passes such a predicate over the sorted
`virtualNodes`.) -/
def sortSearch (n : Nat) (f : Nat → Bool) : Nat := ((List.range n).find? f).getD n

/-- `h.virtualNodes[i]` (reads are always in bounds in the source; out of
bounds yields the default, which the proofs never rely on). -/
def getVnode (l : List VirtualNode) (i : Nat) : VirtualNode := l.getD i default

/-- The index-collection loop of `Ring.Remove`: for each of the record's
vnodes in order, binary-search `ringVns` for the first position comparing
`≥ 0` against it; `vnodeIndex >= len` aborts with `ErrVnodeNotFound` (the Go
loop returns at the first failing vnode). -/
def collectIndexes (ringVns : List VirtualNode) : List VirtualNode → Except RingErr (List Nat)
  | [] => .ok []
  | vnode :: rest =>
    let vnodeIndex := sortSearch ringVns.length
      (fun i => decide (0 ≤ cmpVnode (getVnode ringVns i) vnode))
    if ringVns.length ≤ vnodeIndex then .error .vnodeNotFound
    else
      match collectIndexes ringVns rest with
      | .error e => .error e
      | .ok idxs => .ok (vnodeIndex :: idxs)

/-- The reversed comparison of `sort.Slice(indexesToRemove, ...)`. -/
def descNat (a b : Nat) : Prop := b ≤ a

instance : DecidableRel descNat := fun a b => Nat.decLe b a

/-- Go `sort.Slice(indexesToRemove, ...)` with the reversed comparison: the
indices in descending order. -/
def sortIndexesDesc (l : List Nat) : List Nat := l.insertionSort descNat

/-- The swap-with-last loop of `Ring.Remove` followed by the truncation: the
`i`-th index `d` (in the given, descending, order) is overwritten with the
element currently at position `len-1-i`, then the last `idxs.length`
positions are dropped. -/
def swapRemove (vns : List VirtualNode) (idxs : List Nat) : List VirtualNode :=
  let len := vns.length
  let swapped := (idxs.foldl
    (fun (st : List VirtualNode × Nat) d =>
      (st.1.set d (getVnode st.1 (len - 1 - st.2)), st.2 + 1))
    (vns, 0)).1
  swapped.take (len - idxs.length)

/-- Go `Ring.Remove`.  The source mutates the ring only after the last error
return, so on error the ring is exactly the input. -/
def Ring.Remove (h : Ring) (member : Member) : Except RingErr Ring :=
  let nodeKeyString := member.key
  match lookupNode h.nodes nodeKeyString with
  | none => .error .memberNotFound
  | some foundNode =>
    match collectIndexes h.virtualNodes foundNode.virtualNodes with
    | .error e => .error e
    | .ok collected =>
      let indexesToRemove := sortIndexesDesc collected
      if indexesToRemove.length ≠ h.replicationFactor then .error .unexpectedVnodeCount
      else .ok { h with
        virtualNodes := sortVnodes (swapRemove h.virtualNodes indexesToRemove),
        nodes := eraseNode h.nodes nodeKeyString }

/-- The walk loop of `Ring.FindN`: starting offset `vnodeIndex`, visit
`(i + vnodeIndex) % len` for `i = 0, 1, ...` while `i < len` and fewer than
`num` members have been found, collecting each owner not seen before.
The Go loop runs at most `len` iterations; `fuel` is a structural bound on
the remaining iterations (`FindN` passes `len`; the guard `i < len` fails no
later than the fuel runs out, so the bound never alters the result). -/
def findLoop (vns : List VirtualNode) (num vnodeIndex : Nat) :
    Nat → Nat → List Bytes → List Member → List Member
  | 0, _, _, foundNodes => foundNodes
  | fuel + 1, i, alreadyFound, foundNodes =>
    if i < vns.length ∧ foundNodes.length < num then
      let candidate := getVnode vns ((i + vnodeIndex) % vns.length)
      if candidate.members.nodeKey ∈ alreadyFound then
        findLoop vns num vnodeIndex fuel (i + 1) alreadyFound foundNodes
      else
        findLoop vns num vnodeIndex fuel (i + 1) (candidate.members.nodeKey :: alreadyFound)
          (foundNodes ++ [candidate.members.member])
    else foundNodes

/-- Go `Ring.FindN`. -/
def Ring.FindN (h : Ring) (key : Bytes) (num : Nat) : Except RingErr (List Member) :=
  if h.nodes.length < num then .error .notEnoughMembers
  else
    let keyHash := h.hashfn key
    let vnodeIndex := sortSearch h.virtualNodes.length
      (fun i => decide (keyHash ≤ (getVnode h.virtualNodes i).hashvalue))
    .ok (findLoop h.virtualNodes num vnodeIndex h.virtualNodes.length 0 [] [])

/-- One API call against the ring; the Go methods leave the receiver
untouched when they return an error. -/
inductive RingOp where
  | add (m : Member)
  | remove (m : Member)

def Ring.step (h : Ring) (op : RingOp) : Ring :=
  match op with
  | .add m =>
    match h.Add m with
    | .ok h2 => h2
    | .error _ => h
  | .remove m =>
    match h.Remove m with
    | .ok h2 => h2
    | .error _ => h

/-- The ring after a sequence of `Add` / `Remove` calls against a freshly
constructed ring (each call either succeeds or leaves the ring unchanged). -/
def runOps (f : HashFunc) (R : Nat) (ops : List RingOp) : Ring :=
  ops.foldl Ring.step (emptyRing f R)

/-- Adding a list of members in order, ignoring per-call errors. -/
def addAll (f : HashFunc) (R : Nat) (members : List Member) : Ring :=
  runOps f R (members.map .add)

/-! ### Properties of the comparators -/

theorem stringsCompare_eq_zero_iff : ∀ (a b : Bytes), stringsCompare a b = 0 ↔ a = b := by
  intro a
  induction a with
  | nil => intro b; cases b <;> simp [stringsCompare]
  | cons x xs ih =>
    intro b
    cases b with
    | nil => simp [stringsCompare]
    | cons y ys =>
      rcases Nat.lt_trichotomy x y with h | h | h
      · have hne : x ≠ y := Nat.ne_of_lt h
        simp [stringsCompare, h, hne]
      · subst h
        simp [stringsCompare, Nat.lt_irrefl, ih]
      · have h2 : ¬ x < y := Nat.not_lt.mpr (Nat.le_of_lt h)
        simp [stringsCompare, h, h2]
        intro hxe
        exact absurd hxe (by omega)

theorem stringsCompare_neg : ∀ (a b : Bytes), stringsCompare b a = -stringsCompare a b := by
  intro a
  induction a with
  | nil => intro b; cases b <;> simp [stringsCompare]
  | cons x xs ih =>
    intro b
    cases b with
    | nil => simp [stringsCompare]
    | cons y ys =>
      rcases Nat.lt_trichotomy x y with h | h | h
      · have h2 : ¬ y < x := Nat.not_lt.mpr (Nat.le_of_lt h)
        simp [stringsCompare, h, h2]
      · subst h
        simp [stringsCompare, Nat.lt_irrefl, ih]
      · have h2 : ¬ x < y := Nat.not_lt.mpr (Nat.le_of_lt h)
        simp [stringsCompare, h, h2]

theorem stringsCompare_trans : ∀ (a b c : Bytes),
    stringsCompare a b ≤ 0 → stringsCompare b c ≤ 0 → stringsCompare a c ≤ 0 := by
  intro a
  induction a with
  | nil => intro b c _ _; cases c <;> simp [stringsCompare]
  | cons x xs ih =>
    intro b c hab hbc
    cases b with
    | nil => simp [stringsCompare] at hab
    | cons y ys =>
      cases c with
      | nil => simp [stringsCompare] at hbc
      | cons z zs =>
        simp only [stringsCompare] at hab hbc ⊢
        by_cases hxy : x < y
        · by_cases hyz : y < z
          · have hxz : x < z := Nat.lt_trans hxy hyz
            simp [hxz]
          · by_cases hzy : z < y
            · simp [hyz, hzy] at hbc
            · have hyzeq : y = z := by omega
              subst hyzeq
              simp [hxy]
        · by_cases hyx : y < x
          · simp [hxy, hyx] at hab
          · have hxyeq : x = y := by omega
            subst hxyeq
            by_cases hxz : x < z
            · simp [hxz]
            · by_cases hzx : z < x
              · simp [hxz, hzx] at hbc
              · have hxzeq : x = z := by omega
                subst hxzeq
                simp only [Nat.lt_irrefl, if_false] at hab hbc ⊢
                exact ih _ _ hab hbc

theorem compareUint64_le_zero_iff {x y : Nat} : compareUint64 x y ≤ 0 ↔ x ≤ y := by
  unfold compareUint64; split <;> rename_i h1
  · omega
  · split <;> omega

theorem compareUint64_eq_zero_iff {x y : Nat} : compareUint64 x y = 0 ↔ x = y := by
  unfold compareUint64; split <;> rename_i h1
  · omega
  · split <;> omega

theorem cmpVnode_eq_zero_iff {a b : VirtualNode} :
    cmpVnode a b = 0 ↔
      a.hashvalue = b.hashvalue ∧ a.members.hashvalue = b.members.hashvalue ∧
        a.members.nodeKey = b.members.nodeKey := by
  unfold cmpVnode
  by_cases h1 : a.hashvalue = b.hashvalue
  · by_cases h2 : a.members.hashvalue = b.members.hashvalue
    · simp [h1, h2, stringsCompare_eq_zero_iff]
    · simp [h1, h2, compareUint64_eq_zero_iff]
  · simp [h1, compareUint64_eq_zero_iff]

theorem cmpVnode_self (a : VirtualNode) : cmpVnode a a = 0 :=
  cmpVnode_eq_zero_iff.mpr ⟨rfl, rfl, rfl⟩

theorem cmpVnode_neg (a b : VirtualNode) : cmpVnode b a = -cmpVnode a b := by
  unfold cmpVnode
  by_cases h1 : a.hashvalue = b.hashvalue
  · by_cases h2 : a.members.hashvalue = b.members.hashvalue
    · rw [if_pos h1.symm, if_pos h2.symm, if_pos h1, if_pos h2]
      exact stringsCompare_neg _ _
    · have h2s : ¬ b.members.hashvalue = a.members.hashvalue := fun h => h2 h.symm
      rw [if_pos h1.symm, if_neg h2s, if_pos h1, if_neg h2]
      unfold compareUint64
      split <;> split <;> omega
  · have h1s : ¬ b.hashvalue = a.hashvalue := fun h => h1 h.symm
    rw [if_neg h1s, if_neg h1]
    unfold compareUint64
    split <;> split <;> omega

/-- `vnodeLE` unfolded to the lexicographic description of the spec (vnode
hash ascending, then owner key-hash ascending, then lexicographic byte
comparison of the owner key). -/
theorem vnodeLE_iff {a b : VirtualNode} :
    vnodeLE a b ↔
      a.hashvalue < b.hashvalue ∨
        (a.hashvalue = b.hashvalue ∧
          (a.members.hashvalue < b.members.hashvalue ∨
            (a.members.hashvalue = b.members.hashvalue ∧
              stringsCompare a.members.nodeKey b.members.nodeKey ≤ 0))) := by
  unfold vnodeLE cmpVnode
  by_cases h1 : a.hashvalue = b.hashvalue
  · by_cases h2 : a.members.hashvalue = b.members.hashvalue
    · simp [h1, h2]
    · simp [h1, h2, compareUint64_le_zero_iff]
      omega
  · simp [h1, compareUint64_le_zero_iff]
    omega

theorem vnodeLE_refl (a : VirtualNode) : vnodeLE a a := by
  unfold vnodeLE; rw [cmpVnode_self]

theorem vnodeLE_total (a b : VirtualNode) : vnodeLE a b ∨ vnodeLE b a := by
  unfold vnodeLE
  rw [cmpVnode_neg a b]
  omega

theorem vnodeLE_trans {a b c : VirtualNode} (hab : vnodeLE a b) (hbc : vnodeLE b c) :
    vnodeLE a c := by
  rw [vnodeLE_iff] at hab hbc ⊢
  rcases hab with h1 | ⟨h1, h2⟩
  · rcases hbc with h3 | ⟨h3, _⟩
    · exact Or.inl (Nat.lt_trans h1 h3)
    · exact Or.inl (h3 ▸ h1)
  · rcases hbc with h3 | ⟨h3, h4⟩
    · exact Or.inl (h1 ▸ h3)
    · refine Or.inr ⟨h1.trans h3, ?_⟩
      rcases h2 with h2 | ⟨h2, h5⟩
      · rcases h4 with h4 | ⟨h4, _⟩
        · exact Or.inl (Nat.lt_trans h2 h4)
        · exact Or.inl (h4 ▸ h2)
      · rcases h4 with h4 | ⟨h4, h6⟩
        · exact Or.inl (h2 ▸ h4)
        · exact Or.inr ⟨h2.trans h4, stringsCompare_trans _ _ _ h5 h6⟩

/-- Mutual `vnodeLE` pins down everything but the member payload. -/
theorem vnodeLE_antisymm_cmp {a b : VirtualNode} (hab : vnodeLE a b) (hba : vnodeLE b a) :
    cmpVnode a b = 0 := by
  unfold vnodeLE at hab hba
  rw [cmpVnode_neg a b] at hba
  omega

instance : IsTotal VirtualNode vnodeLE := ⟨vnodeLE_total⟩

instance : IsTrans VirtualNode vnodeLE := ⟨fun _ _ _ => vnodeLE_trans⟩

theorem sortVnodes_sorted (l : List VirtualNode) : (sortVnodes l).Sorted vnodeLE :=
  List.sorted_insertionSort vnodeLE l

theorem sortVnodes_perm (l : List VirtualNode) : (sortVnodes l).Perm l :=
  List.perm_insertionSort vnodeLE l

theorem sortVnodes_length (l : List VirtualNode) : (sortVnodes l).length = l.length :=
  (sortVnodes_perm l).length_eq

/-- Two sorted lists that are permutations of each other agree, provided the
order is antisymmetric on the elements involved. -/
theorem eq_of_perm_of_sorted_vnode : ∀ {l1 l2 : List VirtualNode},
    l1.Perm l2 →
    (∀ a ∈ l1, ∀ b ∈ l1, vnodeLE a b → vnodeLE b a → a = b) →
    l1.Sorted vnodeLE → l2.Sorted vnodeLE → l1 = l2 := by
  intro l1
  induction l1 with
  | nil => intro l2 hp _ _ _; exact hp.nil_eq
  | cons a t1 ih =>
    intro l2 hp anti h1 h2
    cases l2 with
    | nil => exact absurd hp.symm.nil_eq (by simp)
    | cons b t2 =>
      have hbmem : b ∈ a :: t1 := hp.mem_iff.mpr (List.mem_cons_self b t2)
      have hamem : a ∈ b :: t2 := hp.mem_iff.mp (List.mem_cons_self a t1)
      have hab : vnodeLE a b := by
        rcases List.mem_cons.mp hbmem with h | h
        · exact h ▸ vnodeLE_refl a
        · exact List.rel_of_sorted_cons h1 b h
      have hba : vnodeLE b a := by
        rcases List.mem_cons.mp hamem with h | h
        · exact h ▸ vnodeLE_refl a
        · exact List.rel_of_sorted_cons h2 a h
      have hban : a = b := anti a (List.mem_cons_self a t1) b hbmem hab hba
      subst hban
      have hp2 : t1.Perm t2 := hp.cons_inv
      have anti2 : ∀ x ∈ t1, ∀ y ∈ t1, vnodeLE x y → vnodeLE y x → x = y :=
        fun x hx y hy => anti x (List.mem_cons_of_mem a hx) y (List.mem_cons_of_mem a hy)
      exact congrArg (a :: ·) (ih hp2 anti2 h1.of_cons h2.of_cons)

/-! ### Basic facts about the ring operations -/

/-- What a successful `Add` returns, read off from the source. -/
theorem Add_ok_elim {h h2 : Ring} {m : Member} (hadd : h.Add m = .ok h2) :
    lookupNode h.nodes m.key = none ∧
    h2 = { h with
      virtualNodes := sortVnodes (h.virtualNodes ++
        memberVnodes h.hashfn h.replicationFactor (h.hashfn m.key) m.key m),
      nodes := (m.key,
        { hashvalue := h.hashfn m.key, nodeKey := m.key, member := m,
          virtualNodes :=
            memberVnodes h.hashfn h.replicationFactor (h.hashfn m.key) m.key m }) ::
        h.nodes } := by
  simp only [Ring.Add] at hadd
  split at hadd
  · cases hadd
  · rename_i hnone
    cases hadd
    exact ⟨Option.not_isSome_iff_eq_none.mp (by simpa using hnone), rfl⟩

/-- What a successful `Remove` returns, read off from the source. -/
theorem Remove_ok_elim {h h2 : Ring} {m : Member} (hrem : h.Remove m = .ok h2) :
    ∃ (rec : NodeRecord) (idxs : List Nat),
      lookupNode h.nodes m.key = some rec ∧
      collectIndexes h.virtualNodes rec.virtualNodes = .ok idxs ∧
      (sortIndexesDesc idxs).length = h.replicationFactor ∧
      h2 = { h with
        virtualNodes := sortVnodes (swapRemove h.virtualNodes (sortIndexesDesc idxs)),
        nodes := eraseNode h.nodes m.key } := by
  simp only [Ring.Remove] at hrem
  split at hrem
  · cases hrem
  · rename_i rec hl
    split at hrem
    · cases hrem
    · rename_i idxs hc
      split at hrem
      · cases hrem
      · rename_i hne
        cases hrem
        exact ⟨rec, idxs, hl, hc, by omega, rfl⟩

theorem step_replicationFactor (h : Ring) (op : RingOp) :
    (h.step op).replicationFactor = h.replicationFactor := by
  unfold Ring.step
  cases op with
  | add m =>
    cases hadd : h.Add m with
    | ok h2 => simp only [hadd]; rw [(Add_ok_elim hadd).2]
    | error e => simp only [hadd]
  | remove m =>
    cases hrem : h.Remove m with
    | ok h2 =>
      obtain ⟨rec, idxs, _, _, _, h2eq⟩ := Remove_ok_elim hrem
      simp only [hrem]; rw [h2eq]
    | error e => simp only [hrem]

theorem step_hashfn (h : Ring) (op : RingOp) : (h.step op).hashfn = h.hashfn := by
  unfold Ring.step
  cases op with
  | add m =>
    cases hadd : h.Add m with
    | ok h2 => simp only [hadd]; rw [(Add_ok_elim hadd).2]
    | error e => simp only [hadd]
  | remove m =>
    cases hrem : h.Remove m with
    | ok h2 =>
      obtain ⟨rec, idxs, _, _, _, h2eq⟩ := Remove_ok_elim hrem
      simp only [hrem]; rw [h2eq]
    | error e => simp only [hrem]

theorem foldl_step_invariant {P : Ring → Prop}
    (hstep : ∀ (h : Ring) (op : RingOp), P h → P (h.step op)) :
    ∀ (ops : List RingOp) (h : Ring), P h → P (ops.foldl Ring.step h) := by
  intro ops
  induction ops with
  | nil => intro h hP; exact hP
  | cons o os ih => intro h hP; exact ih _ (hstep _ _ hP)

theorem collectIndexes_ok_length {ringVns : List VirtualNode} :
    ∀ {recVns : List VirtualNode} {idxs : List Nat},
      collectIndexes ringVns recVns = .ok idxs → idxs.length = recVns.length := by
  intro recVns
  induction recVns with
  | nil => intro idxs hok; cases hok; rfl
  | cons v rest ih =>
    intro idxs hok
    simp only [collectIndexes] at hok
    split at hok
    · cases hok
    · split at hok
      · cases hok
      · rename_i idxs2 hrec
        cases hok
        simp [ih hrec]

theorem collectIndexes_error_eq {ringVns : List VirtualNode} :
    ∀ {recVns : List VirtualNode} {e : RingErr},
      collectIndexes ringVns recVns = .error e → e = .vnodeNotFound := by
  intro recVns
  induction recVns with
  | nil => intro e hok; cases hok
  | cons v rest ih =>
    intro e hok
    simp only [collectIndexes] at hok
    split at hok
    · cases hok; rfl
    · split at hok
      · rename_i e2 hrec
        cases hok
        exact ih hrec
      · cases hok

theorem sortIndexesDesc_length (l : List Nat) : (sortIndexesDesc l).length = l.length :=
  (List.perm_insertionSort _ l).length_eq

theorem swapFold_fst_length (len : Nat) :
    ∀ (idxs : List Nat) (st : List VirtualNode × Nat),
      ((idxs.foldl
        (fun (st : List VirtualNode × Nat) d =>
          (st.1.set d (getVnode st.1 (len - 1 - st.2)), st.2 + 1)) st).1).length =
        st.1.length := by
  intro idxs
  induction idxs with
  | nil => intro st; rfl
  | cons d rest ih =>
    intro st
    rw [List.foldl_cons, ih]
    exact List.length_set ..

theorem swapRemove_length (vns : List VirtualNode) (idxs : List Nat) :
    (swapRemove vns idxs).length = vns.length - idxs.length := by
  unfold swapRemove
  rw [List.length_take, swapFold_fst_length]
  exact Nat.min_eq_left (Nat.sub_le _ _)

/-! ### Claim C4: the virtual-node hash input -/

/-- The 10-byte buffer exactly as the spec words it: bytes `[0..8)` hold
`keyHash` as little-endian 64-bit, bytes `[8..10)` hold `i` as little-endian
16-bit. -/
def specVnodeBuffer (keyHash i : Nat) : Bytes :=
  [keyHash % 256, keyHash / 256 % 256, keyHash / 256 ^ 2 % 256, keyHash / 256 ^ 3 % 256,
   keyHash / 256 ^ 4 % 256, keyHash / 256 ^ 5 % 256, keyHash / 256 ^ 6 % 256,
   keyHash / 256 ^ 7 % 256, i % 256, i / 256 % 256]

theorem virtualNodeBuffer_eq_spec (kh i : Nat) :
    virtualNodeBuffer kh i = specVnodeBuffer kh i := by
  unfold virtualNodeBuffer putUint64LE putUint16LE specVnodeBuffer
  norm_num [List.range_succ]

/-- Claim C4: for a member added with key `K` and `keyHash = hashfn(K)`, the
`i`-th virtual node of the stored record (for `i < R`) has hash
`hashfn(buffer)` where the 10-byte buffer holds `keyHash` little-endian
64-bit in bytes 0..8 and `i` little-endian 16-bit in bytes 8..10; that
virtual node is also placed on the ring. -/
theorem c4_vnode_hash (h h2 : Ring) (m : Member) (i : Nat)
    (hadd : h.Add m = .ok h2) (hi : i < h.replicationFactor) :
    ∃ rec : NodeRecord,
      lookupNode h2.nodes m.key = some rec ∧
      rec.virtualNodes.length = h.replicationFactor ∧
      (getVnode rec.virtualNodes i).hashvalue =
        h.hashfn (specVnodeBuffer (h.hashfn m.key) i) ∧
      getVnode rec.virtualNodes i ∈ h2.virtualNodes := by
  simp only [Ring.Add] at hadd
  split at hadd
  · cases hadd
  · cases hadd
    have hlen : (memberVnodes h.hashfn h.replicationFactor
        (h.hashfn m.key) m.key m).length = h.replicationFactor := by
      simp [memberVnodes]
    have hmem : getVnode (memberVnodes h.hashfn h.replicationFactor
        (h.hashfn m.key) m.key m) i ∈
        memberVnodes h.hashfn h.replicationFactor (h.hashfn m.key) m.key m := by
      unfold getVnode
      rw [List.getD_eq_getElem _ _ (by omega)]
      exact List.getElem_mem _
    refine ⟨{ hashvalue := h.hashfn m.key, nodeKey := m.key, member := m,
              virtualNodes := memberVnodes h.hashfn h.replicationFactor
                (h.hashfn m.key) m.key m },
            by simp [lookupNode], hlen, ?_, ?_⟩
    · have hget : getVnode (memberVnodes h.hashfn h.replicationFactor
          (h.hashfn m.key) m.key m) i =
          { hashvalue := h.hashfn (virtualNodeBuffer (h.hashfn m.key) i),
            members := { hashvalue := h.hashfn m.key, nodeKey := m.key, member := m } } := by
        unfold getVnode memberVnodes
        rw [List.getD_eq_getElem _ _ (by simpa using hi)]
        simp
      rw [hget, virtualNodeBuffer_eq_spec]
    · exact (sortVnodes_perm _).mem_iff.mpr (List.mem_append_right _ hmem)

theorem lookupNode_some_mem {nodes : List (Bytes × NodeRecord)} {k : Bytes} {rec : NodeRecord}
    (hl : lookupNode nodes k = some rec) : (k, rec) ∈ nodes := by
  unfold lookupNode at hl
  cases hf : nodes.find? (fun q => decide (q.1 = k)) with
  | none => rw [hf] at hl; cases hl
  | some q =>
    rw [hf] at hl
    cases hl
    have hmem := List.mem_of_find?_eq_some hf
    have hkey := List.find?_some hf
    simp only [decide_eq_true_eq] at hkey
    rw [← hkey]
    exact hmem

/-! ### Claim C2: atomicity of Remove -/

/-- Claim C2 (amended): `Remove` returns `MemberNotFound` exactly when the
key is absent; on any error the ring is unchanged; on success the key is
deleted from `nodes` and exactly `replicationFactor` entries disappear from
`vnodes`. -/
theorem c2_remove_atomic (h : Ring) (m : Member) :
    (h.Remove m = .error .memberNotFound ↔ lookupNode h.nodes m.key = none) ∧
    (∀ e : RingErr, h.Remove m = .error e → h.step (.remove m) = h) ∧
    (∀ h2 : Ring, h.Remove m = .ok h2 →
      h2.nodes = eraseNode h.nodes m.key ∧
      h2.virtualNodes.length = h.virtualNodes.length - h.replicationFactor) := by
  refine ⟨⟨?_, ?_⟩, ?_, ?_⟩
  · intro he
    simp only [Ring.Remove] at he
    split at he
    · assumption
    · split at he
      · rename_i e2 hc
        cases he
        exact absurd (collectIndexes_error_eq hc) (by simp)
      · split at he
        · cases he
        · cases he
  · intro hnone
    simp only [Ring.Remove]
    rw [hnone]
  · intro e he
    unfold Ring.step
    simp only [he]
  · intro h2 hok
    obtain ⟨rec, idxs, hl, hc, hlen, h2eq⟩ := Remove_ok_elim hok
    subst h2eq
    refine ⟨rfl, ?_⟩
    simp only
    rw [sortVnodes_length, swapRemove_length, hlen]

/-- A constant hash function: a legal `HashFunc` under which distinct
virtual nodes of one member compare equal under `cmpVnode`. -/
def zeroHash : HashFunc := fun _ => 0

def cMemA : Member := ⟨[97], 1⟩

def cMemB : Member := ⟨[98], 2⟩

/-- Ring with `R = 2` over the constant hash, members "a" and "b" (both
`Add`s succeed). -/
def cRing : Ring := ((emptyRing zeroHash 2).step (.add cMemA)).step (.add cMemB)

/-- The state after `Remove(cMemA)` (which succeeds). -/
def c2r3 : Ring := cRing.step (.remove cMemA)

/-- Both virtual nodes of member "a" in `cRing` are this single value. -/
def cVnodeA : VirtualNode := ⟨0, ⟨0, [97], cMemA⟩⟩

/-- Claim C2 counterexample: under the constant hash, member "a"'s record
holds the vnode value `cVnodeA` twice; `Remove cMemA` succeeds (deleting the
key and shrinking `vnodes` by `R = 2`), yet `cVnodeA` is still on the ring
afterwards — so it is not the case that all `R` virtual nodes of the
member's record were removed from `vnodes` (the binary search located the
same index for both of the record's equal-comparing vnodes, and the
swap-with-last pass then removed an unrelated vnode instead). -/
theorem c2_counterexample :
    cRing.Remove cMemA = Except.ok c2r3 ∧
    ((lookupNode cRing.nodes cMemA.key).getD default).virtualNodes = [cVnodeA, cVnodeA] ∧
    cVnodeA ∈ c2r3.virtualNodes ∧
    lookupNode c2r3.nodes cMemA.key = none :=
  ⟨rfl, by decide, by decide, by decide⟩

/-- Witness for the amended C2 at the same concrete input. -/
theorem c2_remove_atomic_witness :
    c2r3.nodes = eraseNode cRing.nodes cMemA.key ∧
    c2r3.virtualNodes.length = cRing.virtualNodes.length - cRing.replicationFactor :=
  (c2_remove_atomic cRing cMemA).2.2 c2r3 rfl

/-! ### Claim C10: UnexpectedVnodeCount is unreachable -/

/-- Every record stored in the `nodes` map carries exactly
`replicationFactor` virtual nodes. -/
def recLenInv (h : Ring) : Prop :=
  ∀ p ∈ h.nodes, (p : Bytes × NodeRecord).2.virtualNodes.length = h.replicationFactor

theorem recLenInv_step (h : Ring) (op : RingOp) (hInv : recLenInv h) :
    recLenInv (h.step op) := by
  unfold Ring.step
  cases op with
  | add m =>
    cases hadd : h.Add m with
    | ok h2 =>
      simp only [hadd]
      obtain ⟨-, h2eq⟩ := Add_ok_elim hadd
      subst h2eq
      intro p hp
      rcases List.mem_cons.mp hp with hp | hp
      · subst hp
        simp [memberVnodes]
      · exact hInv p hp
    | error e => simp only [hadd]; exact hInv
  | remove m =>
    cases hrem : h.Remove m with
    | ok h2 =>
      simp only [hrem]
      obtain ⟨rec, idxs, hl, hc, hlen, h2eq⟩ := Remove_ok_elim hrem
      subst h2eq
      intro p hp
      exact hInv p (List.mem_of_mem_filter hp)
    | error e => simp only [hrem]; exact hInv

theorem runOps_recLenInv (f : HashFunc) (R : Nat) (ops : List RingOp) :
    recLenInv (runOps f R ops) := by
  unfold runOps
  refine foldl_step_invariant recLenInv_step ops _ ?_
  intro p hp
  cases hp

/-- Claim C10: on every ring reachable from `New` by `Add` and `Remove`
calls, `Remove` never returns `ErrUnexpectedVnodeCount`: each stored record
has exactly `R` virtual nodes and the index-collection loop either aborts
with `ErrVnodeNotFound` or yields one index per record vnode, so the count
check never fires. -/
theorem c10_no_unexpected_vnode_count (f : HashFunc) (R : Nat) (ops : List RingOp)
    (m : Member) (hR : 1 ≤ R) :
    (runOps f R ops).Remove m ≠ .error .unexpectedVnodeCount := by
  intro hcontra
  simp only [Ring.Remove] at hcontra
  split at hcontra
  · cases hcontra
  · rename_i rec hl
    split at hcontra
    · rename_i e2 hc
      cases hcontra
      exact absurd (collectIndexes_error_eq hc) (by simp)
    · rename_i idxs hc
      split at hcontra
      · rename_i hne
        have hrecmem := lookupNode_some_mem hl
        have hrecLen := runOps_recLenInv f R ops _ hrecmem
        have hidxs := collectIndexes_ok_length hc
        rw [sortIndexesDesc_length, hidxs, hrecLen] at hne
        exact hne rfl
      · cases hcontra

/-- Witness for C10 at a concrete reachable ring. -/
theorem c10_witness :
    (runOps zeroHash 1 [RingOp.add cMemA]).Remove cMemB ≠
      .error .unexpectedVnodeCount :=
  c10_no_unexpected_vnode_count zeroHash 1 [RingOp.add cMemA] cMemB (by decide)

/-! ### Claim C3: size and sortedness invariant -/

/-- The total order of spec section 4.1, stated in its words: vnode hash
ascending, then owner key-hash ascending, then lexicographic byte comparison
of the owner key. -/
def specVnodeOrder (a b : VirtualNode) : Prop :=
  a.hashvalue < b.hashvalue ∨
    (a.hashvalue = b.hashvalue ∧
      (a.members.hashvalue < b.members.hashvalue ∨
        (a.members.hashvalue = b.members.hashvalue ∧
          stringsCompare a.members.nodeKey b.members.nodeKey ≤ 0)))

theorem vnodeLE_iff_spec {a b : VirtualNode} : vnodeLE a b ↔ specVnodeOrder a b :=
  vnodeLE_iff

theorem lookupNode_none_iff {ns : List (Bytes × NodeRecord)} {k : Bytes} :
    lookupNode ns k = none ↔ ∀ p ∈ ns, ¬ p.1 = k := by
  simp [lookupNode, List.find?_eq_none]

theorem eraseNode_eq_self {ns : List (Bytes × NodeRecord)} {k : Bytes}
    (hk : ∀ p ∈ ns, ¬ p.1 = k) : eraseNode ns k = ns := by
  unfold eraseNode
  apply List.filter_eq_self.mpr
  intro p hp
  simpa using hk p hp

theorem eraseNode_length {ns : List (Bytes × NodeRecord)} {k : Bytes} {rec : NodeRecord}
    (hnd : (ns.map Prod.fst).Nodup) (hmem : (k, rec) ∈ ns) :
    (eraseNode ns k).length + 1 = ns.length := by
  induction ns with
  | nil => cases hmem
  | cons p rest ih =>
    simp only [List.map_cons, List.nodup_cons] at hnd
    rcases List.mem_cons.mp hmem with he | hmem2
    · have hpk : p.1 = k := by rw [← he]
      have hrest : eraseNode rest k = rest := by
        apply eraseNode_eq_self
        intro q hq hqk
        have hq1 : q.1 ∈ rest.map Prod.fst := List.mem_map_of_mem Prod.fst hq
        rw [hqk, ← hpk] at hq1
        exact hnd.1 hq1
      unfold eraseNode at hrest ⊢
      rw [List.filter_cons, if_neg (by simp [hpk]), hrest, List.length_cons]
    · have hkmem : k ∈ rest.map Prod.fst := by
        rw [show k = (k, rec).1 from rfl]
        exact List.mem_map_of_mem Prod.fst hmem2
      have hpk : ¬ p.1 = k := fun hcontra => hnd.1 (hcontra ▸ hkmem)
      have htail := ih hnd.2 hmem2
      unfold eraseNode at htail ⊢
      simp only [List.filter_cons]
      rw [if_pos (by simpa using hpk)]
      simp only [List.length_cons]
      omega

/-- `nodes` map keys are pairwise distinct. -/
def ringNodupKeys (h : Ring) : Prop := (h.nodes.map Prod.fst).Nodup

/-- The inductive invariant behind claim C3. -/
def ringInv (R : Nat) (h : Ring) : Prop :=
  h.replicationFactor = R ∧ ringNodupKeys h ∧
  h.virtualNodes.length = h.nodes.length * R ∧
  h.virtualNodes.Sorted vnodeLE

theorem ringInv_step {R : Nat} (h : Ring) (op : RingOp) (hI : ringInv R h) :
    ringInv R (h.step op) := by
  obtain ⟨hRF, hnd, hlen, hsort⟩ := hI
  unfold Ring.step
  cases op with
  | add m =>
    cases hadd : h.Add m with
    | error e => exact (by simp only [hadd]; exact ⟨hRF, hnd, hlen, hsort⟩)
    | ok h2 =>
      simp only [hadd]
      obtain ⟨hnone, h2eq⟩ := Add_ok_elim hadd
      subst h2eq
      refine ⟨hRF, ?_, ?_, sortVnodes_sorted _⟩
      · unfold ringNodupKeys at hnd ⊢
        simp only [List.map_cons]
        refine List.nodup_cons.mpr ⟨?_, hnd⟩
        intro hmemk
        obtain ⟨p, hp, hpk⟩ := List.mem_map.mp hmemk
        exact (lookupNode_none_iff.mp hnone p hp) hpk
      · simp only [sortVnodes_length, List.length_append, List.length_cons]
        rw [hlen]
        simp only [memberVnodes, List.length_map, List.length_range, hRF]
        ring
  | remove m =>
    cases hrem : h.Remove m with
    | error e => exact (by simp only [hrem]; exact ⟨hRF, hnd, hlen, hsort⟩)
    | ok h2 =>
      simp only [hrem]
      obtain ⟨rec, idxs, hl, hc, hlenidx, h2eq⟩ := Remove_ok_elim hrem
      subst h2eq
      refine ⟨hRF, ?_, ?_, sortVnodes_sorted _⟩
      · unfold ringNodupKeys at hnd ⊢
        exact hnd.sublist (List.Sublist.map Prod.fst (List.filter_sublist h.nodes))
      · have hkmem := lookupNode_some_mem hl
        have hn1 := eraseNode_length hnd hkmem
        simp only [sortVnodes_length, swapRemove_length, hlenidx, hlen, hRF]
        rw [← hn1]
        simp [Nat.succ_mul]

theorem runOps_ringInv (f : HashFunc) (R : Nat) (ops : List RingOp) :
    ringInv R (runOps f R ops) := by
  unfold runOps
  refine foldl_step_invariant (fun h op => ringInv_step h op) ops _ ?_
  refine ⟨rfl, by simp [ringNodupKeys, emptyRing], by simp [emptyRing], ?_⟩
  exact List.sorted_nil

/-- Claim C3: after every `Add`/`Remove` call on a ring created by `New`
(whether the call succeeds or errors), `|vnodes| = |nodes| * R` and the
`vnodes` sequence is sorted under the total order of the spec. -/
theorem c3_invariant (f : HashFunc) (R : Nat) (ops : List RingOp) (hR : 1 ≤ R) :
    (runOps f R ops).virtualNodes.length = (runOps f R ops).nodes.length * R ∧
    (runOps f R ops).virtualNodes.Sorted specVnodeOrder := by
  obtain ⟨hRF, hnd, hlen, hsort⟩ := runOps_ringInv f R ops
  exact ⟨hlen, hsort.imp (fun hab => vnodeLE_iff_spec.mp hab)⟩

/-- Witness for C3 at a concrete ring. -/
theorem c3_witness :
    (runOps zeroHash 1 [RingOp.add cMemA]).virtualNodes.length =
      (runOps zeroHash 1 [RingOp.add cMemA]).nodes.length * 1 ∧
    (runOps zeroHash 1 [RingOp.add cMemA]).virtualNodes.Sorted specVnodeOrder :=
  c3_invariant zeroHash 1 [RingOp.add cMemA] (by decide)

/-! ### Claim C1: characterization of FindN -/

theorem sortSearch_le (n : Nat) (f : Nat → Bool) : sortSearch n f ≤ n := by
  unfold sortSearch
  cases hf : (List.range n).find? f with
  | none => simp
  | some i =>
    simp only [Option.getD_some]
    exact Nat.le_of_lt (List.mem_range.mp (List.mem_of_find?_eq_some hf))

theorem sortSearch_found {n : Nat} {f : Nat → Bool} (hlt : sortSearch n f < n) :
    f (sortSearch n f) = true := by
  unfold sortSearch at hlt ⊢
  cases hf : (List.range n).find? f with
  | none => rw [hf] at hlt; simp at hlt
  | some i => simpa using List.find?_some hf

theorem sortSearch_min {f : Nat → Bool} :
    ∀ {n : Nat}, ∀ j < sortSearch n f, f j = false := by
  intro n
  induction n with
  | zero =>
    intro j hj
    unfold sortSearch at hj
    simp at hj
  | succ m ih =>
    intro j hj
    unfold sortSearch at hj
    rw [List.range_succ, List.find?_append] at hj
    cases hf : (List.range m).find? f with
    | some i =>
      rw [hf] at hj
      simp only [Option.or_some, Option.getD_some] at hj
      have hjm : j < sortSearch m f := by
        unfold sortSearch
        rw [hf]
        simpa using hj
      exact ih _ hjm
    | none =>
      rw [hf] at hj
      simp only [Option.none_or] at hj
      have hall := List.find?_eq_none.mp hf
      by_cases hjm : j < m
      · simpa using hall j (List.mem_range.mpr hjm)
      · cases hfm : List.find? f [m] with
        | some x =>
          rw [hfm] at hj
          have hx := List.mem_of_find?_eq_some hfm
          simp only [List.mem_singleton] at hx
          subst hx
          simp only [Option.getD_some] at hj
          omega
        | none =>
          rw [hfm] at hj
          simp only [Option.getD_none] at hj
          have hjem : j = m := by omega
          subst hjem
          simpa using List.find?_eq_none.mp hfm j (by simp)

theorem sortSearch_lt {n : Nat} {f : Nat → Bool} (j : Nat) (hj : j < n)
    (hfj : f j = true) : sortSearch n f < n := by
  by_contra hge
  have hle := sortSearch_le n f
  have heq : sortSearch n f = n := by omega
  have hmin := sortSearch_min (n := n) (f := f) j (by omega)
  rw [hfj] at hmin
  cases hmin

theorem sortSearch_eq_len {n : Nat} {f : Nat → Bool} (hall : ∀ j < n, f j = false) :
    sortSearch n f = n := by
  have hle := sortSearch_le n f
  by_contra hne
  have hlt : sortSearch n f < n := by omega
  have := sortSearch_found hlt
  rw [hall _ hlt] at this
  cases this

/-- The start of the walk, in the words of the claim: the smallest index `i`
with `vnodes[i].hash ≥ keyHash`, wrapping to index 0 when no such index
exists. -/
def specStartIndex (vns : List VirtualNode) (keyHash : Nat) : Nat :=
  if hex : ∃ i, i < vns.length ∧ keyHash ≤ (getVnode vns i).hashvalue
  then Nat.find hex else 0

/-- The vnode sequence walked circularly from index `s`. -/
def walkFrom (vns : List VirtualNode) (s : Nat) : List VirtualNode :=
  vns.drop s ++ vns.take s

/-- First-seen deduplication by owner key: the distinct owning members in
walk order. -/
def distinctOwners : List VirtualNode → List Bytes → List Member
  | [], _ => []
  | v :: vs, seen =>
    if v.members.nodeKey ∈ seen then distinctOwners vs seen
    else v.members.member :: distinctOwners vs (v.members.nodeKey :: seen)

/-- `FindN` in the words of the claim: error exactly when `num > |nodes|`;
otherwise the first `num` distinct owning members encountered on the
circular walk from the start index. -/
def specFindN (h : Ring) (key : Bytes) (num : Nat) : Except RingErr (List Member) :=
  if num > h.nodes.length then .error .notEnoughMembers
  else .ok ((distinctOwners
    (walkFrom h.virtualNodes (specStartIndex h.virtualNodes (h.hashfn key))) []).take num)

theorem walkFrom_length (vns : List VirtualNode) (s : Nat) :
    (walkFrom vns s).length = vns.length := by
  simp [walkFrom]
  omega

theorem walkFrom_perm (vns : List VirtualNode) (s : Nat) :
    (walkFrom vns s).Perm vns := by
  unfold walkFrom
  calc (vns.drop s ++ vns.take s).Perm (vns.take s ++ vns.drop s) := List.perm_append_comm
    _ = vns := List.take_append_drop s vns

theorem getVnode_walkFrom (vns : List VirtualNode) (s i : Nat) (hs : s ≤ vns.length)
    (hi : i < vns.length) :
    getVnode (walkFrom vns s) i = getVnode vns ((i + s) % vns.length) := by
  unfold walkFrom getVnode
  have hdl : (vns.drop s).length = vns.length - s := List.length_drop ..
  by_cases hcase : i < vns.length - s
  · have hmod : (i + s) % vns.length = i + s := Nat.mod_eq_of_lt (by omega)
    rw [hmod]
    rw [List.getD_append _ _ _ _ (by omega)]
    rw [List.getD_eq_getElem _ _ (by omega), List.getD_eq_getElem _ _ (by omega)]
    simp only [List.getElem_drop]
    congr 1
    omega
  · have hmod : (i + s) % vns.length = i + s - vns.length := by
      have h1 : i + s - vns.length < vns.length := by omega
      have h2 : i + s = i + s - vns.length + vns.length := by omega
      calc (i + s) % vns.length
          = (i + s - vns.length + vns.length) % vns.length := by rw [← h2]
        _ = (i + s - vns.length) % vns.length := Nat.add_mod_right ..
        _ = i + s - vns.length := Nat.mod_eq_of_lt h1
    rw [hmod]
    rw [List.getD_append_right _ _ _ _ (by omega)]
    rw [hdl]
    have hlt2 : i - (vns.length - s) < (vns.take s).length := by
      rw [List.length_take]
      omega
    rw [List.getD_eq_getElem _ _ hlt2, List.getD_eq_getElem _ _ (by omega)]
    simp only [List.getElem_take]
    congr 1
    omega

theorem distinctOwners_length :
    ∀ (l : List VirtualNode) (seen : List Bytes),
      (distinctOwners l seen).length =
        ((l.map (fun v => v.members.nodeKey)).toFinset \ seen.toFinset).card := by
  intro l
  induction l with
  | nil => intro seen; simp [distinctOwners]
  | cons v vs ih =>
    intro seen
    unfold distinctOwners
    by_cases hseen : v.members.nodeKey ∈ seen
    · rw [if_pos hseen, ih]
      congr 1
      rw [List.map_cons, List.toFinset_cons]
      rw [Finset.insert_sdiff_of_mem _ (List.mem_toFinset.mpr hseen)]
    · rw [if_neg hseen]
      simp only [List.length_cons, ih]
      rw [List.map_cons, List.toFinset_cons, List.toFinset_cons]
      rw [Finset.insert_sdiff_of_not_mem _ (fun hc => hseen (List.mem_toFinset.mp hc))]
      rw [Finset.sdiff_insert]
      rw [Finset.card_insert_eq_ite, Finset.card_erase_eq_ite]
      by_cases hk : v.members.nodeKey ∈
          (List.map (fun v => v.members.nodeKey) vs).toFinset \ seen.toFinset
      · rw [if_pos hk, if_pos hk]
        have hpos := Finset.card_pos.mpr ⟨_, hk⟩
        omega
      · rw [if_neg hk, if_neg hk]

theorem findLoop_eq (vns : List VirtualNode) (num s : Nat) (hs : s ≤ vns.length) :
    ∀ (k i : Nat), vns.length - i ≤ k →
      ∀ (seen : List Bytes) (found : List Member), found.length ≤ num →
      findLoop vns num s k i seen found =
        found ++ (distinctOwners ((walkFrom vns s).drop i) seen).take (num - found.length) := by
  intro k
  induction k with
  | zero =>
    intro i hik seen found hfle
    rw [findLoop]
    rw [List.drop_eq_nil_of_le (by rw [walkFrom_length]; omega)]
    simp [distinctOwners]
  | succ k ih =>
    intro i hik seen found hfle
    by_cases hcond : i < vns.length ∧ found.length < num
    · rw [findLoop, if_pos hcond]
      have hi := hcond.1
      have hiw : i < (walkFrom vns s).length := by rw [walkFrom_length]; exact hi
      have hdrop : (walkFrom vns s).drop i =
          getVnode vns ((i + s) % vns.length) :: (walkFrom vns s).drop (i + 1) := by
        rw [List.drop_eq_getElem_cons hiw]
        congr 1
        rw [← getVnode_walkFrom vns s i hs hi]
        unfold getVnode
        rw [List.getD_eq_getElem _ _ hiw]
      rw [hdrop]
      unfold distinctOwners
      by_cases hseen : (getVnode vns ((i + s) % vns.length)).members.nodeKey ∈ seen
      · rw [if_pos hseen, if_pos hseen]
        exact ih (i + 1) (by omega) seen found hfle
      · rw [if_neg hseen, if_neg hseen]
        rw [ih (i + 1) (by omega)
          ((getVnode vns ((i + s) % vns.length)).members.nodeKey :: seen)
          (found ++ [(getVnode vns ((i + s) % vns.length)).members.member])
          (by simp only [List.length_append, List.length_cons, List.length_nil]; omega)]
        have hd : num - found.length =
            (num - (found ++ [(getVnode vns ((i + s) % vns.length)).members.member]).length) + 1 := by
          simp only [List.length_append, List.length_cons, List.length_nil]
          omega
        rw [hd, List.take_succ_cons]
        simp
    · rw [findLoop, if_neg hcond]
      rcases not_and_or.mp hcond with hi | hf
      · rw [List.drop_eq_nil_of_le (by rw [walkFrom_length]; omega)]
        simp [distinctOwners]
      · have hz : num - found.length = 0 := by omega
        rw [hz]
        simp

theorem FindN_eq_specFindN (h : Ring) (key : Bytes) (num : Nat) :
    h.FindN key num = specFindN h key num := by
  simp only [Ring.FindN, specFindN]
  by_cases hn : h.nodes.length < num
  · rw [if_pos hn, if_pos hn]
  · rw [if_neg hn, if_neg hn]
    congr 1
    by_cases hex : ∃ j, j < h.virtualNodes.length ∧
        h.hashfn key ≤ (getVnode h.virtualNodes j).hashvalue
    · have hstart : sortSearch h.virtualNodes.length
          (fun i => decide (h.hashfn key ≤ (getVnode h.virtualNodes i).hashvalue)) =
          Nat.find hex := by
        apply Nat.le_antisymm
        · by_contra hlt
          push_neg at hlt
          have hspec := Nat.find_spec hex
          have hmin := sortSearch_min (Nat.find hex) hlt
          rw [decide_eq_false_iff_not] at hmin
          exact hmin hspec.2
        · obtain ⟨j, hj, hpj⟩ := id hex
          have hslt : sortSearch h.virtualNodes.length
              (fun i => decide (h.hashfn key ≤ (getVnode h.virtualNodes i).hashvalue)) <
              h.virtualNodes.length :=
            sortSearch_lt j hj (by simpa using hpj)
          have hpred := sortSearch_found hslt
          exact Nat.find_min' hex ⟨hslt, by simpa using hpred⟩
      rw [hstart]
      unfold specStartIndex
      rw [dif_pos hex]
      have hsle : Nat.find hex ≤ h.virtualNodes.length := le_of_lt (Nat.find_spec hex).1
      rw [findLoop_eq h.virtualNodes num _ hsle h.virtualNodes.length 0 (by omega) [] []
        (by simp)]
      simp
    · have hall : ∀ j < h.virtualNodes.length,
          (fun i => decide (h.hashfn key ≤ (getVnode h.virtualNodes i).hashvalue)) j = false := by
        intro j hj
        push_neg at hex
        simpa using hex j hj
      rw [sortSearch_eq_len hall]
      unfold specStartIndex
      rw [dif_neg hex]
      have hwalk : walkFrom h.virtualNodes h.virtualNodes.length =
          walkFrom h.virtualNodes 0 := by
        unfold walkFrom
        simp
      rw [findLoop_eq h.virtualNodes num _ (le_refl _) h.virtualNodes.length 0 (by omega) [] []
        (by simp)]
      rw [hwalk]
      simp

/-- Spec section 3: every node key is owned by some virtual node on the
ring. -/
def ownersCover (h : Ring) : Prop :=
  ∀ p ∈ h.nodes, ∃ v ∈ h.virtualNodes, v.members.nodeKey = p.1

/-- Claim C1: `FindN(key, N)` errors with `NotEnoughMembers` exactly when
`N > |nodes|`; otherwise it walks the vnode sequence circularly from the
smallest index whose vnode hash is `≥ hashfn(key)` (0 when none) and returns
the first `N` distinct owning members in walk order; under the data-model
invariants (distinct node keys, every node key owning some vnode) the result
has exactly `N` members whenever `N ≤ |nodes|`. -/
theorem c1_findN (h : Ring) (key : Bytes) (num : Nat)
    (hnd : ringNodupKeys h) (hcov : ownersCover h) :
    h.FindN key num = specFindN h key num ∧
    (h.FindN key num = .error .notEnoughMembers ↔ h.nodes.length < num) ∧
    (num ≤ h.nodes.length →
      ∃ ms, h.FindN key num = .ok ms ∧ ms.length = num) := by
  refine ⟨FindN_eq_specFindN h key num, ⟨?_, ?_⟩, ?_⟩
  · intro he
    by_contra hn
    unfold Ring.FindN at he
    rw [if_neg hn] at he
    cases he
  · intro hn
    unfold Ring.FindN
    rw [if_pos hn]
  · intro hle
    have hn : ¬ h.nodes.length < num := by omega
    rw [FindN_eq_specFindN h key num]
    unfold specFindN
    rw [if_neg hn]
    refine ⟨_, rfl, ?_⟩
    rw [List.length_take]
    have hcard : h.nodes.length ≤
        (distinctOwners (walkFrom h.virtualNodes
          (specStartIndex h.virtualNodes (h.hashfn key))) []).length := by
      rw [distinctOwners_length]
      simp only [List.toFinset_nil, Finset.sdiff_empty]
      have hperm : ((walkFrom h.virtualNodes
          (specStartIndex h.virtualNodes (h.hashfn key))).map
            (fun v => v.members.nodeKey)).toFinset =
          (h.virtualNodes.map (fun v => v.members.nodeKey)).toFinset := by
        apply Finset.ext
        intro x
        simp only [List.mem_toFinset]
        exact ((walkFrom_perm _ _).map _).mem_iff
      rw [hperm]
      have hsub : (h.nodes.map Prod.fst).toFinset ⊆
          (h.virtualNodes.map (fun v => v.members.nodeKey)).toFinset := by
        intro x hx
        rw [List.mem_toFinset] at hx ⊢
        obtain ⟨p, hp, hpk⟩ := List.mem_map.mp hx
        obtain ⟨v, hv, hvk⟩ := hcov p hp
        exact List.mem_map.mpr ⟨v, hv, by rw [hvk, hpk]⟩
      calc h.nodes.length = (h.nodes.map Prod.fst).length := by rw [List.length_map]
        _ = (h.nodes.map Prod.fst).toFinset.card := (List.toFinset_card_of_nodup hnd).symm
        _ ≤ _ := Finset.card_le_card hsub
    omega

/-- Witness ring for C1: an injective-on-small-inputs hash, two members,
replication factor 1. -/
def wHash : HashFunc := fun bs => bs.foldl (fun a b => a * 257 + b + 1) 7

def wRing : Ring := ((emptyRing wHash 1).step (.add cMemA)).step (.add cMemB)

/-- Witness for C1: the hypotheses hold on `wRing` and the conclusion
evaluates there. -/
theorem c1_findN_witness :
    wRing.FindN [55] 2 = specFindN wRing [55] 2 ∧
    (wRing.FindN [55] 2 = .error .notEnoughMembers ↔ wRing.nodes.length < 2) ∧
    (2 ≤ wRing.nodes.length →
      ∃ ms, wRing.FindN [55] 2 = .ok ms ∧ ms.length = 2) :=
  c1_findN wRing [55] 2 (by unfold ringNodupKeys; decide) (by unfold ownersCover; decide)

/-- A one-member ring over `wHash` used as the C4 witness. -/
def wRing1 : Ring := (emptyRing wHash 1).step (.add cMemA)

/-- Witness for C4 at a concrete successful `Add`. -/
theorem c4_vnode_hash_witness :
    ∃ rec : NodeRecord,
      lookupNode wRing1.nodes cMemA.key = some rec ∧
      rec.virtualNodes.length = (emptyRing wHash 1).replicationFactor ∧
      (getVnode rec.virtualNodes 0).hashvalue =
        (emptyRing wHash 1).hashfn (specVnodeBuffer ((emptyRing wHash 1).hashfn cMemA.key) 0) ∧
      getVnode rec.virtualNodes 0 ∈ wRing1.virtualNodes :=
  c4_vnode_hash (emptyRing wHash 1) wRing1 cMemA 0 rfl (by decide)

/-! ### Claim C5: insertion-order independence of Add -/

theorem foldl_step_hashfn :
    ∀ (ops : List RingOp) (h : Ring), (ops.foldl Ring.step h).hashfn = h.hashfn := by
  intro ops
  induction ops with
  | nil => intro h; rfl
  | cons o os ih => intro h; rw [List.foldl_cons, ih, step_hashfn]

/-- The set of keys currently in the `nodes` map. -/
def keyset (h : Ring) : Finset Bytes := (h.nodes.map Prod.fst).toFinset

/-- The effect of one `Add` on the (vnode multiset, key set) abstraction of
the ring. -/
def absStep (f : HashFunc) (R : Nat) (st : Multiset VirtualNode × Finset Bytes)
    (m : Member) : Multiset VirtualNode × Finset Bytes :=
  if m.key ∈ st.2 then st
  else (st.1 + (memberVnodes f R (f m.key) m.key m : Multiset VirtualNode),
        insert m.key st.2)

theorem lookupNode_isSome_iff_keyset (h : Ring) (k : Bytes) :
    (lookupNode h.nodes k).isSome = true ↔ k ∈ keyset h := by
  unfold lookupNode keyset
  simp only [Option.isSome_map', List.find?_isSome, List.mem_toFinset, List.mem_map,
    decide_eq_true_eq]

/-- Folding `Add` over a list of members tracks the abstract fold. -/
theorem addFold_abs (f : HashFunc) (R : Nat) :
    ∀ (l : List Member) (h : Ring), h.hashfn = f → h.replicationFactor = R →
      ((((l.map RingOp.add).foldl Ring.step h).virtualNodes : Multiset VirtualNode),
        keyset ((l.map RingOp.add).foldl Ring.step h)) =
        l.foldl (absStep f R) ((h.virtualNodes : Multiset VirtualNode), keyset h) := by
  intro l
  induction l with
  | nil =>
    intro h hf hR
    rfl
  | cons m l ih =>
    intro h hf hR
    simp only [List.map_cons, List.foldl_cons]
    rw [ih (h.step (.add m)) (by rw [step_hashfn, hf]) (by rw [step_replicationFactor, hR])]
    congr 1
    unfold Ring.step
    by_cases hk : m.key ∈ keyset h
    · have hsome : (lookupNode h.nodes m.key).isSome = true :=
        (lookupNode_isSome_iff_keyset h m.key).mpr hk
      have hErr : h.Add m = .error .memberAlreadyExists := by
        simp only [Ring.Add]
        rw [if_pos hsome]
      simp only [hErr]
      unfold absStep
      rw [if_pos hk]
    · have hnone : ¬ (lookupNode h.nodes m.key).isSome = true :=
        fun hc => hk ((lookupNode_isSome_iff_keyset h m.key).mp hc)
      have hOk : h.Add m = .ok { h with
          virtualNodes := sortVnodes (h.virtualNodes ++
            memberVnodes h.hashfn h.replicationFactor (h.hashfn m.key) m.key m),
          nodes := (m.key,
            { hashvalue := h.hashfn m.key, nodeKey := m.key, member := m,
              virtualNodes :=
                memberVnodes h.hashfn h.replicationFactor (h.hashfn m.key) m.key m }) ::
            h.nodes } := by
        simp only [Ring.Add]
        rw [if_neg hnone]
      simp only [hOk]
      unfold absStep
      rw [if_neg hk]
      refine Prod.ext ?_ ?_
      · show ((sortVnodes (h.virtualNodes ++
            memberVnodes h.hashfn h.replicationFactor (h.hashfn m.key) m.key m) :
              List VirtualNode) : Multiset VirtualNode) = _
        rw [Multiset.coe_eq_coe.mpr (sortVnodes_perm _)]
        rw [← Multiset.coe_add]
        rw [hf, hR]
      · show keyset _ = _
        unfold keyset
        simp [List.toFinset_cons]

/-- `absStep` commutes for members drawn from a key-injective list. -/
theorem absStep_comm (f : HashFunc) (R : Nat) (l : List Member)
    (hinj : ∀ a ∈ l, ∀ b ∈ l, a.key = b.key → a = b) :
    ∀ x ∈ l, ∀ y ∈ l, ∀ (z : Multiset VirtualNode × Finset Bytes),
      absStep f R (absStep f R z x) y = absStep f R (absStep f R z y) x := by
  intro x hx y hy z
  by_cases hxy : x.key = y.key
  · rw [hinj x hx y hy hxy]
  · unfold absStep
    by_cases hxz : x.key ∈ z.2 <;> by_cases hyz : y.key ∈ z.2
    · simp [hxz, hyz]
    · have hxin : x.key ∈ insert y.key z.2 := Finset.mem_insert_of_mem hxz
      simp [hxz, hyz, hxin]
    · have hyin : y.key ∈ insert x.key z.2 := Finset.mem_insert_of_mem hyz
      simp [hxz, hyz, hyin]
    · have hyin : ¬ y.key ∈ insert x.key z.2 := by
        rw [Finset.mem_insert]
        rintro (hc | hc)
        · exact hxy hc.symm
        · exact hyz hc
      have hxin : ¬ x.key ∈ insert y.key z.2 := by
        rw [Finset.mem_insert]
        rintro (hc | hc)
        · exact hxy hc
        · exact hxz hc
      simp only [hxz, hyz, hxin, hyin, if_false, ite_false]
      refine Prod.ext ?_ ?_
      · show z.1 + _ + _ = z.1 + _ + _
        exact add_right_comm ..
      · show insert y.key (insert x.key z.2) = insert x.key (insert y.key z.2)
        exact Finset.Insert.comm ..

/-- Every vnode produced by the abstract fold is either initial or owned by
a member of the list. -/
theorem addFold_owners (f : HashFunc) (R : Nat) :
    ∀ (l : List Member) (st : Multiset VirtualNode × Finset Bytes),
      ∀ v ∈ (l.foldl (absStep f R) st).1,
        v ∈ st.1 ∨ ∃ m ∈ l, v.members = ⟨f m.key, m.key, m⟩ := by
  intro l
  induction l with
  | nil => intro st v hv; exact Or.inl hv
  | cons m l ih =>
    intro st v hv
    rw [List.foldl_cons] at hv
    rcases ih _ v hv with hin | ⟨m2, hm2, howner⟩
    · unfold absStep at hin
      split at hin
      · exact Or.inl hin
      · rw [Multiset.mem_add] at hin
        rcases hin with hin | hin
        · exact Or.inl hin
        · right
          refine ⟨m, List.mem_cons_self .., ?_⟩
          have hvl := Multiset.mem_coe.mp hin
          unfold memberVnodes at hvl
          obtain ⟨i, _, hveq⟩ := List.mem_map.mp hvl
          rw [← hveq]
    · exact Or.inr ⟨m2, List.mem_cons_of_mem _ hm2, howner⟩

/-- Claim C5: two rings with the same hash function and replication factor,
built by adding the same members in different orders (keys pairwise
distinct), end with identical `vnodes` sequences, and `FindN(k, 1)` agrees
on them for every key. -/
theorem c5_order_independence (f : HashFunc) (R : Nat) (l1 l2 : List Member)
    (hperm : l1.Perm l2)
    (hinj : ∀ a ∈ l1, ∀ b ∈ l1, a.key = b.key → a = b) :
    (addAll f R l1).virtualNodes = (addAll f R l2).virtualNodes ∧
    ∀ k, (addAll f R l1).FindN k 1 = (addAll f R l2).FindN k 1 := by
  have habs1 := addFold_abs f R l1 (emptyRing f R) rfl rfl
  have habs2 := addFold_abs f R l2 (emptyRing f R) rfl rfl
  have hfoldeq := hperm.foldl_eq' (absStep_comm f R l1 hinj)
    (((emptyRing f R).virtualNodes : Multiset VirtualNode), keyset (emptyRing f R))
  have hpair : ((((addAll f R l1).virtualNodes : Multiset VirtualNode),
      keyset (addAll f R l1))) =
      (((addAll f R l2).virtualNodes : Multiset VirtualNode), keyset (addAll f R l2)) := by
    unfold addAll runOps
    rw [habs1, habs2, hfoldeq]
  have hms : ((addAll f R l1).virtualNodes : Multiset VirtualNode) =
      ((addAll f R l2).virtualNodes : Multiset VirtualNode) := congrArg Prod.fst hpair
  have hkeys : keyset (addAll f R l1) = keyset (addAll f R l2) := congrArg Prod.snd hpair
  have hpermv : (addAll f R l1).virtualNodes.Perm (addAll f R l2).virtualNodes :=
    Multiset.coe_eq_coe.mp hms
  have hInv1 := runOps_ringInv f R (l1.map RingOp.add)
  have hInv2 := runOps_ringInv f R (l2.map RingOp.add)
  have hs1 : (addAll f R l1).virtualNodes.Sorted vnodeLE := hInv1.2.2.2
  have hs2 : (addAll f R l2).virtualNodes.Sorted vnodeLE := hInv2.2.2.2
  have howner : ∀ v ∈ (addAll f R l1).virtualNodes,
      ∃ m ∈ l1, v.members = ⟨f m.key, m.key, m⟩ := by
    intro v hv
    have hvm : v ∈ (l1.foldl (absStep f R)
        (((emptyRing f R).virtualNodes : Multiset VirtualNode), keyset (emptyRing f R))).1 := by
      rw [← habs1]
      exact Multiset.mem_coe.mpr hv
    rcases addFold_owners f R l1 _ v hvm with hin | h2
    · simp [emptyRing] at hin
    · exact h2
  have hanti : ∀ a ∈ (addAll f R l1).virtualNodes, ∀ b ∈ (addAll f R l1).virtualNodes,
      vnodeLE a b → vnodeLE b a → a = b := by
    intro a ha b hb hab hba
    have hcmp := vnodeLE_antisymm_cmp hab hba
    rw [cmpVnode_eq_zero_iff] at hcmp
    obtain ⟨ma, hma, haown⟩ := howner a ha
    obtain ⟨mb, hmb, hbown⟩ := howner b hb
    have hkeq : ma.key = mb.key := by
      have h1 : a.members.nodeKey = ma.key := by rw [haown]
      have h2 : b.members.nodeKey = mb.key := by rw [hbown]
      rw [← h1, ← h2]
      exact hcmp.2.2
    have hmeq : ma = mb := hinj ma hma mb hmb hkeq
    have hmemb : a.members = b.members := by rw [haown, hbown, hmeq]
    cases a
    cases b
    simp only at hmemb
    simp only [VirtualNode.mk.injEq]
    exact ⟨hcmp.1, hmemb⟩
  have hvneq := eq_of_perm_of_sorted_vnode hpermv hanti hs1 hs2
  refine ⟨hvneq, ?_⟩
  intro k
  have hlen : (addAll f R l1).nodes.length = (addAll f R l2).nodes.length := by
    have hnd1 : ((addAll f R l1).nodes.map Prod.fst).Nodup := hInv1.2.1
    have hnd2 : ((addAll f R l2).nodes.map Prod.fst).Nodup := hInv2.2.1
    have hc1 := List.toFinset_card_of_nodup hnd1
    have hc2 := List.toFinset_card_of_nodup hnd2
    unfold keyset at hkeys
    rw [hkeys] at hc1
    rw [hc1] at hc2
    simpa using hc2
  have hf1 : (addAll f R l1).hashfn = f := foldl_step_hashfn (l1.map RingOp.add) (emptyRing f R)
  have hf2 : (addAll f R l2).hashfn = f := foldl_step_hashfn (l2.map RingOp.add) (emptyRing f R)
  simp only [Ring.FindN]
  rw [hvneq, hlen, hf1, hf2]

/-- Witness for C5: two concrete two-member lists in reversed order. -/
theorem c5_order_independence_witness :
    (addAll wHash 2 [cMemA, cMemB]).virtualNodes =
      (addAll wHash 2 [cMemB, cMemA]).virtualNodes :=
  (c5_order_independence wHash 2 [cMemA, cMemB] [cMemB, cMemA]
    (by decide) (by decide)).1

/-! ### The consistent balancer and picker (src/unnamed/part_000)

The gRPC runtime types are modelled as thin facades, following spec
section 6: sub-connections are opaque handles (`Nat`), `resolver.AddressMap`
and the `scStates` map are association lists, calls out to the runtime
(`NewSubConn`, `Connect`, `RemoveSubConn`, `UpdateState`) are recorded as
effects, and the `ConnectivityStateEvaluator` is abstracted by its recorded
transition log together with an arbitrary aggregation function `agg`
standing for `RecordTransition`'s return value. -/

deriving instance DecidableEq for Except

/-- gRPC connectivity states. -/
inductive ConnState where
  | idle
  | connecting
  | ready
  | transientFailure
  | shutdown
deriving DecidableEq, Repr

/-- Error identities the balancer stores or returns (only identity matters
to the control flow, never the message text). -/
inductive GoErr where
  | zeroAddresses
  | badResolverState
  | noHashringConfigured
  | couldntAddToHashring
  | noSubConnAvailable
  | connection (id : Nat)
  | resolver (id : Nat)
deriving DecidableEq, Repr

/-- A published picker: `base.NewErrPicker(errors.Join(connErr, resolverErr))`
or a ring picker with a spread. -/
inductive PickerV where
  | errPicker (connErr resolverErr : Option GoErr)
  | ringPicker (ring : Ring) (spread : Nat)

/-- A resolver address (`resolver.Address`): the fields the balancer reads. -/
structure Addr where
  serverName : Bytes
  addr : Bytes
deriving DecidableEq, Repr

/-- Calls out to the gRPC runtime, in program order. -/
inductive Effect where
  | newSubConnCall (a : Addr)
  | connect (sc : Nat)
  | removeSubConn (sc : Nat)
  | updateState (s : ConnState) (p : PickerV)

def isUpdateState : Effect → Bool
  | .updateState _ _ => true
  | _ => false

/-- `BalancerConfig` (wire shape handled elsewhere). -/
structure BalancerConfig where
  replicationFactor : Nat
  spread : Nat
deriving DecidableEq, Repr

/-- `ringBalancer`. -/
structure Balancer where
  state : ConnState
  picker : PickerV
  evltr : List (ConnState × ConnState)
  subConns : List (Addr × Nat)
  scStates : List (Nat × ConnState)
  config : Option BalancerConfig
  hashring : Option Ring
  hasher : HashFunc
  resolverErr : Option GoErr
  connErr : Option GoErr

def scLookup (l : List (Nat × ConnState)) (sc : Nat) : Option ConnState :=
  (l.find? (fun p => decide (p.1 = sc))).map Prod.snd

def scSet (l : List (Nat × ConnState)) (sc : Nat) (st : ConnState) :
    List (Nat × ConnState) :=
  if (l.find? (fun p => decide (p.1 = sc))).isSome then
    l.map (fun p => if p.1 = sc then (sc, st) else p)
  else l ++ [(sc, st)]

def scDelete (l : List (Nat × ConnState)) (sc : Nat) : List (Nat × ConnState) :=
  l.filter (fun p => decide (p.1 ≠ sc))

def amGet (l : List (Addr × Nat)) (a : Addr) : Option Nat :=
  (l.find? (fun p => decide (p.1 = a))).map Prod.snd

def amSet (l : List (Addr × Nat)) (a : Addr) (sc : Nat) : List (Addr × Nat) :=
  if (l.find? (fun p => decide (p.1 = a))).isSome then
    l.map (fun p => if p.1 = a then (a, sc) else p)
  else l ++ [(a, sc)]

def amDelete (l : List (Addr × Nat)) (a : Addr) : List (Addr × Nat) :=
  l.filter (fun p => decide (p.1 ≠ a))

/-- `ringBalancer.ResolverError`: store the error; with no backends, force
`TransientFailure` with an error picker; publish only when the (possibly
updated) aggregate is `TransientFailure`. -/
def ResolverError (b : Balancer) (err : GoErr) : Balancer × List Effect :=
  let b := { b with resolverErr := some err }
  let b :=
    if b.subConns.length = 0 then
      { b with state := .transientFailure,
               picker := .errPicker b.connErr b.resolverErr }
    else b
  (b, if b.state ≠ .transientFailure then []
      else [.updateState b.state b.picker])

/-- `ringBalancer.UpdateSubConnState`.  `agg` stands for the evaluator's
`RecordTransition` result on the recorded transition log. -/
def UpdateSubConnState (agg : List (ConnState × ConnState) → ConnState)
    (b : Balancer) (sc : Nat) (s : ConnState) (connError : Option GoErr) :
    Balancer × List Effect :=
  match scLookup b.scStates sc with
  | none => (b, [])
  | some oldS =>
    if oldS = .transientFailure ∧ (s = .connecting ∨ s = .idle) then
      (b, if s = .idle then [.connect sc] else [])
    else
      let b := { b with scStates := scSet b.scStates sc s }
      let step2 : Balancer × List Effect :=
        match s with
        | .idle => (b, [Effect.connect sc])
        | .shutdown => ({ b with scStates := scDelete b.scStates sc }, [])
        | .transientFailure => ({ b with connErr := connError }, [])
        | _ => (b, [])
      let b := step2.1
      let log := b.evltr ++ [(oldS, s)]
      let b := { b with evltr := log, state := agg log }
      (b, step2.2 ++ [.updateState b.state b.picker])

/-- `resolver.ClientConnState` projected to what the balancer reads. -/
structure ClientConnState where
  addresses : List Addr
  balancerConfig : Option BalancerConfig

/-- The outcome of `UpdateClientConnState` (a Go `error` or a panic from
`MustNew`). -/
inductive UCCOutcome where
  | ok
  | err (e : GoErr)
  | panicked
deriving DecidableEq, Repr

/-- `hashring.MustNew` as used by the balancer: panics (modelled `none`)
when the replication factor is below 1. -/
def mustNewRing (f : HashFunc) (R : Nat) : Option Ring :=
  match NewRing f R with
  | .ok r => some r
  | .error _ => none

/-- The rebuild condition
`b.config == nil || svcConfig.ReplicationFactor != b.config.ReplicationFactor`. -/
def needRebuild (cur : Option BalancerConfig) (svc : BalancerConfig) : Bool :=
  match cur with
  | none => true
  | some old => decide (svc.replicationFactor ≠ old.replicationFactor)

/-- The first loop of `UpdateClientConnState`: for every address in the new
state, record it in `addrsSet`; for a new address, call `NewSubConn` (the
`newSC` facade; `none` models a `NewSubConn` error, which is logged and
skipped), record the sub-connection `Idle`, record a `Shutdown → Idle`
transition (result discarded), issue `Connect`, and add the member keyed
`ServerName + Addr` to the ring; a ring error aborts the whole update. -/
def processAddresses (newSC : Addr → Option Nat) :
    List Addr → Balancer → Ring → List Addr → List Effect →
    Balancer × Ring × List Addr × List Effect × Option GoErr
  | [], b, ring, addrsSet, effs => (b, ring, addrsSet, effs, none)
  | addr :: rest, b, ring, addrsSet, effs =>
    let addrsSet := addrsSet ++ [addr]
    if (amGet b.subConns addr).isSome then
      processAddresses newSC rest b ring addrsSet effs
    else
      let effs := effs ++ [Effect.newSubConnCall addr]
      match newSC addr with
      | none => processAddresses newSC rest b ring addrsSet effs
      | some sc =>
        let b := { b with
          subConns := amSet b.subConns addr sc,
          scStates := scSet b.scStates sc .idle,
          evltr := b.evltr ++ [(.shutdown, .idle)] }
        let effs := effs ++ [Effect.connect sc]
        match ring.Add { key := addr.serverName ++ addr.addr, data := sc } with
        | .error _ => (b, ring, addrsSet, effs, some .couldntAddToHashring)
        | .ok ring2 => processAddresses newSC rest b ring2 addrsSet effs

/-- The second loop of `UpdateClientConnState`: every known sub-connection
whose address is no longer resolved is removed from the runtime, from
`subConns` (its `scStates` entry is kept until `Shutdown`), and from the
ring; a ring error aborts the whole update. -/
def processRemovals :
    List (Addr × Nat) → Balancer → Ring → List Addr → List Effect →
    Balancer × Ring × List Effect × Option GoErr
  | [], b, ring, _, effs => (b, ring, effs, none)
  | (addr, sc) :: rest, b, ring, addrsSet, effs =>
    if addr ∈ addrsSet then processRemovals rest b ring addrsSet effs
    else
      let effs := effs ++ [Effect.removeSubConn sc]
      let b := { b with subConns := amDelete b.subConns addr }
      match ring.Remove { key := addr.serverName ++ addr.addr, data := sc } with
      | .error _ => (b, ring, effs, some .couldntAddToHashring)
      | .ok ring2 => processRemovals rest b ring2 addrsSet effs

/-- `ringBalancer.UpdateClientConnState`. -/
def UpdateClientConnState (agg : List (ConnState × ConnState) → ConnState)
    (newSC : Addr → Option Nat) (b : Balancer) (s : ClientConnState) :
    Balancer × List Effect × UCCOutcome :=
  let b := { b with resolverErr := none }
  match
    (match s.balancerConfig with
     | none => some b
     | some svcConfig =>
       if needRebuild b.config svcConfig then
         match mustNewRing b.hasher svcConfig.replicationFactor with
         | none => none
         | some ring => some { b with hashring := some ring, config := some svcConfig }
       else some b)
  with
  | none => (b, [], .panicked)
  | some b =>
    match b.hashring with
    | none =>
      let b := { b with picker := .errPicker b.connErr b.resolverErr }
      (b, [.updateState b.state b.picker], .err .noHashringConfigured)
    | some ring =>
      match processAddresses newSC s.addresses b ring [] [] with
      | (b, ring, _, effs, some e) => ({ b with hashring := some ring }, effs, .err e)
      | (b, ring, addrsSet, effs, none) =>
        match processRemovals b.subConns b ring addrsSet effs with
        | (b, ring, effs, some e) => ({ b with hashring := some ring }, effs, .err e)
        | (b, ring, effs, none) =>
          let b := { b with hashring := some ring }
          if s.addresses.length = 0 then
            let r := ResolverError b .zeroAddresses
            (r.1, effs ++ r.2, .err .badResolverState)
          else
            let b :=
              if b.state = .transientFailure then
                { b with picker := .errPicker b.connErr b.resolverErr }
              else
                { b with picker :=
                    .ringPicker ring ((b.config.map (fun c => c.spread)).getD 0) }
            (b, effs ++ [.updateState b.state b.picker], .ok)

/-! ### The picker and intn -/

/-- Two's-complement reinterpretation of a 64-bit value as a Go `int`
(64-bit signed). -/
def toInt64 (u : Nat) : Int :=
  if u % 2 ^ 64 < 2 ^ 63 then (u % 2 ^ 64 : Int) else (u % 2 ^ 64 : Int) - 2 ^ 64

/-- Go's wrapping negation `-x` on a 64-bit `int`. -/
def negInt64 (x : Int) : Int :=
  toInt64 ((-x).emod (2 ^ 64)).toNat

/-- `intn` from the package, with `draw` the value of
`new(maphash.Hash).Sum64()`: reinterpret as signed 64-bit, negate when
negative (which wraps on the minimum value), then Go's truncated `%`. -/
def intn (draw : Nat) (n : Nat) : Int :=
  let out := toInt64 draw
  let out2 := if out < 0 then negInt64 out else out
  out2.tmod (n : Int)

/-- The outcome of `picker.Pick` for a call whose context carries `key` and
whose PRNG draw is `draw`: a sub-connection, a ring error surfaced
unchanged, or a runtime panic from an out-of-range slice index. -/
inductive PickOutcome where
  | picked (sc : Nat)
  | failed (e : RingErr)
  | panicked
deriving DecidableEq, Repr

/-- `picker.Pick`. -/
def Pick (ring : Ring) (spread : Nat) (key : Bytes) (draw : Nat) : PickOutcome :=
  match ring.FindN key spread with
  | .error e => .failed e
  | .ok members =>
    let index : Int := if spread > 1 then intn draw spread else 0
    if hidx : 0 ≤ index ∧ index.toNat < members.length then
      .picked (members.get ⟨index.toNat, hidx.2⟩).data
    else .panicked

/-! ### Claim C6: Pick and intn -/

def cMemC : Member := ⟨[99], 3⟩

/-- A three-member ring (R = 1) to drive `Pick`. -/
def c6Ring : Ring :=
  (((emptyRing wHash 1).step (.add cMemA)).step (.add cMemB)).step (.add cMemC)

/-- Claim C6 (code bug): `intn`'s documentation promises a non-negative
value in `[0, n)`, but when the maphash draw is exactly `2^63` (minInt64 as
a signed 64-bit int) the wrapping negation leaves it negative, Go's
truncated `%` keeps the sign, and `Pick` indexes the member slice at `-2`,
panicking.  With `spread = 1` the index is `0` and `intn` is never
consulted, as the claim states. -/
theorem c6_pick_negative_index :
    intn (2 ^ 63) 3 = -2 ∧
    ¬ (0 : Int) ≤ intn (2 ^ 63) 3 ∧
    (c6Ring.FindN [55] 3).map List.length = .ok 3 ∧
    Pick c6Ring 3 [55] (2 ^ 63) = .panicked ∧
    Pick c6Ring 1 [55] (2 ^ 63) = .picked 1 :=
  ⟨by decide, by decide, by decide, by decide, by decide⟩

/-! ### Claim C7: suppression of post-TransientFailure transitions -/

/-- Claim C7: when the recorded state of a known sub-connection is
`TransientFailure` and the new state is `Idle` or `Connecting`, the balancer
is left completely unchanged — `backendStates` keeps `TransientFailure`, the
evaluator log records nothing, nothing is published — and on `Idle` a
reconnect is still requested via `sc.Connect()`. -/
theorem c7_suppress_after_tf (agg : List (ConnState × ConnState) → ConnState)
    (b : Balancer) (sc : Nat) (s : ConnState) (ce : Option GoErr)
    (hold : scLookup b.scStates sc = some .transientFailure)
    (hs : s = .idle ∨ s = .connecting) :
    UpdateSubConnState agg b sc s ce =
      (b, if s = .idle then [Effect.connect sc] else []) := by
  simp only [UpdateSubConnState, hold]
  rcases hs with rfl | rfl <;> simp

def aggW : List (ConnState × ConnState) → ConnState := fun _ => .connecting

def c7B : Balancer :=
  { state := .connecting, picker := .errPicker none none, evltr := [],
    subConns := [(⟨[116], [49]⟩, 1)], scStates := [(1, .transientFailure)],
    config := some ⟨1, 1⟩, hashring := some wRing1, hasher := wHash,
    resolverErr := none, connErr := none }

/-- Witness for C7 at a concrete balancer. -/
theorem c7_suppress_after_tf_witness :
    UpdateSubConnState aggW c7B 1 .idle none = (c7B, [Effect.connect 1]) :=
  c7_suppress_after_tf aggW c7B 1 .idle none rfl (Or.inl rfl)

/-! ### Claim C9: ResolverError -/

/-- Claim C9: `ResolverError` always stores the error; with no backends it
forces `TransientFailure` and installs an error picker joining the current
connection error with the resolver error; and whenever the aggregate after
that step is not `TransientFailure` it publishes nothing, leaving the
previously published picker and aggregate untouched. -/
theorem c9_resolver_error (b : Balancer) (err : GoErr) :
    (ResolverError b err).1.resolverErr = some err ∧
    (b.subConns.length = 0 →
      (ResolverError b err).1.state = .transientFailure ∧
      (ResolverError b err).1.picker = .errPicker b.connErr (some err)) ∧
    ((ResolverError b err).1.state ≠ .transientFailure →
      (ResolverError b err).2 = [] ∧
      (ResolverError b err).1.picker = b.picker ∧
      (ResolverError b err).1.state = b.state) := by
  simp only [ResolverError]
  by_cases hsc : b.subConns.length = 0
  · rw [if_pos hsc]
    exact ⟨rfl, fun _ => ⟨rfl, rfl⟩, fun hne => absurd rfl hne⟩
  · rw [if_neg hsc]
    refine ⟨rfl, fun hc => absurd hc hsc, fun hne => ⟨?_, rfl, rfl⟩⟩
    rw [if_pos hne]

def c9B : Balancer :=
  { state := .connecting, picker := .errPicker none none, evltr := [],
    subConns := [], scStates := [], config := none, hashring := none,
    hasher := wHash, resolverErr := none, connErr := none }

/-- Witness for C9 at a concrete empty-backend balancer. -/
theorem c9_resolver_error_witness :
    (ResolverError c9B .zeroAddresses).1.resolverErr = some .zeroAddresses ∧
    (ResolverError c9B .zeroAddresses).1.state = .transientFailure ∧
    (ResolverError c9B .zeroAddresses).1.picker =
      .errPicker none (some .zeroAddresses) :=
  ⟨(c9_resolver_error c9B .zeroAddresses).1,
   ((c9_resolver_error c9B .zeroAddresses).2.1 rfl).1,
   ((c9_resolver_error c9B .zeroAddresses).2.1 rfl).2⟩

/-! ### Claim C8: zero addresses -/

theorem processRemovals_preserves :
    ∀ (l : List (Addr × Nat)) (b : Balancer) (ring : Ring) (aset : List Addr)
      (effs : List Effect),
      (processRemovals l b ring aset effs).1.state = b.state ∧
      (processRemovals l b ring aset effs).1.picker = b.picker ∧
      (processRemovals l b ring aset effs).1.resolverErr = b.resolverErr ∧
      (processRemovals l b ring aset effs).1.connErr = b.connErr := by
  intro l
  induction l with
  | nil => intro b ring aset effs; exact ⟨rfl, rfl, rfl, rfl⟩
  | cons p rest ih =>
    intro b ring aset effs
    obtain ⟨addr, sc⟩ := p
    simp only [processRemovals]
    by_cases hmem : addr ∈ aset
    · rw [if_pos hmem]; exact ih b ring aset effs
    · rw [if_neg hmem]
      cases hrem : ring.Remove { key := addr.serverName ++ addr.addr, data := sc } with
      | error e => simp only [hrem]; refine ⟨?_, ?_, ?_, ?_⟩ <;> trivial
      | ok ring2 => simp only [hrem]; exact ih _ ring2 aset _

theorem processRemovals_subConns :
    ∀ (l : List (Addr × Nat)) (b : Balancer) (ring : Ring) (effs : List Effect),
      (processRemovals l b ring [] effs).2.2.2 = none →
      (processRemovals l b ring [] effs).1.subConns =
        b.subConns.filter (fun p => decide (p.1 ∉ l.map Prod.fst)) := by
  intro l
  induction l with
  | nil =>
    intro b ring effs hok
    simp [processRemovals]
  | cons p rest ih =>
    intro b ring effs hok
    obtain ⟨addr, sc⟩ := p
    simp only [processRemovals] at hok ⊢
    rw [if_neg (List.not_mem_nil addr)] at hok ⊢
    cases hrem : ring.Remove { key := addr.serverName ++ addr.addr, data := sc } with
    | error e =>
      simp only [hrem] at hok
      cases hok
    | ok ring2 =>
      simp only [hrem] at hok ⊢
      rw [ih _ ring2 _ hok]
      show (amDelete b.subConns addr).filter _ = _
      unfold amDelete
      rw [List.filter_filter]
      apply List.filter_congr
      intro q hq
      by_cases h1 : q.1 = addr <;> by_cases h2 : q.1 ∈ rest.map Prod.fst <;>
        simp [h1, h2]

theorem processRemovals_effects :
    ∀ (l : List (Addr × Nat)) (b : Balancer) (ring : Ring) (aset : List Addr)
      (effs : List Effect),
      ∃ extra, (processRemovals l b ring aset effs).2.2.1 = effs ++ extra ∧
        ∀ e ∈ extra, isUpdateState e = false := by
  intro l
  induction l with
  | nil =>
    intro b ring aset effs
    exact ⟨[], by simp [processRemovals], by simp⟩
  | cons p rest ih =>
    intro b ring aset effs
    obtain ⟨addr, sc⟩ := p
    simp only [processRemovals]
    by_cases hmem : addr ∈ aset
    · rw [if_pos hmem]; exact ih b ring aset effs
    · rw [if_neg hmem]
      cases hrem : ring.Remove { key := addr.serverName ++ addr.addr, data := sc } with
      | error e =>
        simp only [hrem]
        exact ⟨[.removeSubConn sc], rfl, by simp [isUpdateState]⟩
      | ok ring2 =>
        simp only [hrem]
        obtain ⟨extra, heq, hupd⟩ := ih _ ring2 aset (effs ++ [Effect.removeSubConn sc])
        refine ⟨Effect.removeSubConn sc :: extra, by simpa using heq, ?_⟩
        intro e he
        rcases List.mem_cons.mp he with he | he
        · subst he; rfl
        · exact hupd e he

/-- Claim C8: a resolver update with an empty address set (hashring present,
config unchanged, the removals of the known backends succeeding on the ring)
removes every previously known backend, stores the "produced zero addresses"
resolver error, forces `TransientFailure` with an error picker, publishes
exactly one state, and returns `BadResolverState`. -/
theorem c8_zero_addresses (agg : List (ConnState × ConnState) → ConnState)
    (newSC : Addr → Option Nat) (b : Balancer) (s : ClientConnState) (ring : Ring)
    (hring : b.hashring = some ring)
    (hcfg : s.balancerConfig = none)
    (haddr : s.addresses = [])
    (hrem : (processRemovals b.subConns { b with resolverErr := none } ring
      [] []).2.2.2 = none) :
    (UpdateClientConnState agg newSC b s).2.2 = .err .badResolverState ∧
    (UpdateClientConnState agg newSC b s).1.subConns = [] ∧
    (UpdateClientConnState agg newSC b s).1.resolverErr = some .zeroAddresses ∧
    (UpdateClientConnState agg newSC b s).1.state = .transientFailure ∧
    (UpdateClientConnState agg newSC b s).1.picker =
      .errPicker (UpdateClientConnState agg newSC b s).1.connErr (some .zeroAddresses) ∧
    (UpdateClientConnState agg newSC b s).2.1.filter isUpdateState =
      [.updateState .transientFailure (UpdateClientConnState agg newSC b s).1.picker] := by
  simp only [UpdateClientConnState, hcfg, hring, haddr, processAddresses]
  rw [show ({ b with resolverErr := none, hashring := some ring } : Balancer) =
    { b with resolverErr := none } by rw [← hring]]
  rcases hpr : processRemovals b.subConns { b with resolverErr := none } ring [] []
    with ⟨b2, ring2, effs2, oerr⟩
  have hoerr : oerr = none := by rw [hpr] at hrem; exact hrem
  subst hoerr
  have hsub2 : b2.subConns = [] := by
    have hfil := processRemovals_subConns b.subConns { b with resolverErr := none } ring []
      (by rw [hpr])
    rw [hpr] at hfil
    simp only at hfil
    rw [hfil]
    apply List.filter_eq_nil_iff.mpr
    intro p hp
    simp only [decide_eq_true_eq, Decidable.not_not]
    exact List.mem_map_of_mem Prod.fst hp
  have heffs : ∀ e ∈ effs2, isUpdateState e = false := by
    obtain ⟨extra, heq, hupd⟩ := processRemovals_effects b.subConns
      { b with resolverErr := none } ring [] []
    rw [hpr] at heq
    simp only at heq
    intro e he
    rw [heq] at he
    exact hupd e (by simpa using he)
  dsimp only
  simp only [ResolverError, hsub2]
  simp only [List.length_nil, ite_true, if_true, eq_self_iff_true, ne_eq,
    not_true_eq_false, if_false, ite_false, reduceIte]
  refine ⟨trivial, trivial, trivial, trivial, trivial, ?_⟩
  rw [List.filter_append]
  rw [List.filter_eq_nil_iff.mpr (fun e he => by simp [heffs e he])]
  simp [isUpdateState]


def c8Addr : Addr := ⟨[], [116, 49]⟩

def c8Ring : Ring := (emptyRing wHash 1).step (.add ⟨[116, 49], 1⟩)

def c8B : Balancer :=
  { state := .connecting, picker := .errPicker none none, evltr := [],
    subConns := [(c8Addr, 1)], scStates := [(1, .idle)], config := some ⟨1, 1⟩,
    hashring := some c8Ring, hasher := wHash, resolverErr := none, connErr := none }

theorem c8_zero_addresses_witness :
    (UpdateClientConnState aggW (fun _ => none) c8B ⟨[], none⟩).2.2 =
      .err .badResolverState ∧
    (UpdateClientConnState aggW (fun _ => none) c8B ⟨[], none⟩).1.subConns = [] ∧
    (UpdateClientConnState aggW (fun _ => none) c8B ⟨[], none⟩).1.resolverErr =
      some .zeroAddresses :=
  ⟨(c8_zero_addresses aggW (fun _ => none) c8B ⟨[], none⟩ c8Ring rfl rfl rfl (by decide)).1,
   (c8_zero_addresses aggW (fun _ => none) c8B ⟨[], none⟩ c8Ring rfl rfl rfl (by decide)).2.1,
   (c8_zero_addresses aggW (fun _ => none) c8B ⟨[], none⟩ c8Ring rfl rfl rfl (by decide)).2.2.1⟩


end Spec2Proof
